import Mathlib

/-!
The ip_filter program (otus-cpp hw02): a shallow embedding of `main.cpp`.

`std::string` is a list of characters, `std::uint8_t` is `Fin 256`,
`std::uint32_t` and `unsigned long` are naturals reduced explicitly.
Standard-library routines the program calls (`find_first_of`, `substr`,
`std::stoul`, `std::to_string`, `std::sort`) are modelled from the C++
standard; everything else follows the source line by line.
-/

namespace IpFilter

/-! ## Library routines used by `split` -/

/-- The two `std::exception` kinds the program can meet. -/
inductive Exception where
  | invalid_argument
  | out_of_range
  deriving DecidableEq, Repr

deriving instance DecidableEq for Except

/-- Index of the first occurrence of `c` in `s` (`none` when absent). -/
def firstIndex (c : Char) : List Char → Option Nat
  | [] => none
  | x :: xs => if x = c then some 0 else (firstIndex c xs).map (· + 1)

/-- `str.find_first_of(c, pos)`: the least index `i ≥ pos` with `str[i] = c`;
`none` stands for `std::string::npos`. -/
def find_first_of (str : List Char) (c : Char) (pos : Nat) : Option Nat :=
  (firstIndex c (str.drop pos)).map (pos + ·)

/-- `str.substr(pos, len)`; `len = none` is the default `npos` (to the end).
Throws `std::out_of_range` when `pos > str.size()`. -/
def substr (str : List Char) (pos : Nat) (len : Option Nat) : Except Exception (List Char) :=
  if pos > str.length then .error .out_of_range
  else match len with
    | none => .ok (str.drop pos)
    | some n => .ok ((str.drop pos).take n)

/-! ## `split` (main.cpp 16-33) -/

/-- The `while (stop != npos)` loop of `split` together with the final
`push_back`/`return`.  `none` means the iteration budget ran out before the
loop exited; `some (.error e)` means `substr` threw. -/
def splitLoop (str : List Char) (delimitter : Char) :
    Nat → Nat → Option Nat → List (List Char) → Option (Except Exception (List (List Char)))
  | 0, _, _, _ => none
  | _ + 1, start, none, result =>
    match substr str start none with
    | .error e => some (.error e)
    | .ok piece => some (.ok (result ++ [piece]))
  | fuel + 1, start, some stop, result =>
    match substr str start (some (stop - start)) with
    | .error e => some (.error e)
    | .ok piece => splitLoop str delimitter fuel (stop + 1)
        (find_first_of str delimitter (stop + 1)) (result ++ [piece])

/-- The complete run of `split`: `start = 0`, `stop = str.find_first_of(delimitter)`,
then the loop, with one iteration per character plus the exit. -/
def splitRun (str : List Char) (delimitter : Char) :
    Option (Except Exception (List (List Char))) :=
  splitLoop str delimitter (str.length + 1) 0 (find_first_of str delimitter 0) []

/-- The vector returned by `split`.  `splitRun` always ends in `some (.ok _)`
(lemma `splitRun_eq`), so the fallback is never taken. -/
def split (str : List Char) (delimitter : Char) : List (List Char) :=
  match splitRun str delimitter with
  | some (.ok result) => result
  | _ => []

/-! ## `class IpAddr` (main.cpp 35-111) -/

/-- One `std::uint8_t`. -/
abbrev Octet := Fin 256

/-- The object state: `std::array<std::uint8_t, 4> m_ipParts`. -/
structure IpAddr where
  p0 : Octet
  p1 : Octet
  p2 : Octet
  p3 : Octet
  deriving DecidableEq, Repr

namespace IpAddr

/-- The array `m_ipParts` as the sequence `cbegin() .. cend()`. -/
def m_ipParts (a : IpAddr) : List Octet := [a.p0, a.p1, a.p2, a.p3]

/-- Writing `m_ipParts[i] = v` for an index inside the array. -/
def set (a : IpAddr) (i : Nat) (v : Octet) : IpAddr :=
  match i with
  | 0 => { a with p0 := v }
  | 1 => { a with p1 := v }
  | 2 => { a with p2 := v }
  | 3 => { a with p3 := v }
  | _ => a

/-- `toU32` (main.cpp 102-108): shift-and-OR in `std::uint32_t`. -/
def toU32 (a : IpAddr) : Nat :=
  ((((a.p0.val <<< 24) % 2 ^ 32) ||| ((a.p1.val <<< 16) % 2 ^ 32)
    ||| ((a.p2.val <<< 8) % 2 ^ 32)) ||| a.p3.val) % 2 ^ 32

/-- `operator>` (main.cpp 48-51). -/
def gt (a other : IpAddr) : Bool := decide (a.toU32 > other.toU32)

end IpAddr

/-- The big-endian 32-bit value of an address, written arithmetically. -/
def be32 (a : IpAddr) : Nat :=
  a.p0.val * 2 ^ 24 + a.p1.val * 2 ^ 16 + a.p2.val * 2 ^ 8 + a.p3.val

/-! ## `std::sort` with `std::greater<IpAddr>` -/

/-- `std::greater<IpAddr>()(a, b)` is `a > b`. -/
def greater (a b : IpAddr) : Bool := a.gt b

/-- Insertion of one element in front of the first element that it does not
come after under `comp`. -/
def sortInsert (comp : IpAddr → IpAddr → Bool) (x : IpAddr) : List IpAddr → List IpAddr
  | [] => [x]
  | y :: ys => if comp y x then y :: sortInsert comp x ys else x :: y :: ys

/-- `std::sort(first, last, comp)`.  The standard fixes the result only as a
permutation ordered by `comp`; for `std::greater<IpAddr>` elements that are
equivalent are equal, so that result is unique (lemma `sort_unique`) and an
insertion sort computes it. -/
def sort (comp : IpAddr → IpAddr → Bool) (pool : List IpAddr) : List IpAddr :=
  pool.foldr (sortInsert comp) []

/-! ## Construction from text (main.cpp 38-44) -/

/-- The C-locale `isspace`, which `strtoul` uses to skip leading blanks. -/
def isspace (c : Char) : Bool :=
  c = ' ' || c = '\t' || c = '\n' || c = '\x0b' || c = '\x0c' || c = '\r'

/-- Value of a run of decimal digit characters, most significant first. -/
def digitsValue (ds : List Char) : Nat :=
  ds.foldl (fun acc c => 10 * acc + (c.toNat - 48)) 0

/-- What `strtoul` looks at after the leading white space: whether a minus
sign is present, and the text after the optional sign. -/
def signAndRest (body : List Char) : Bool × List Char :=
  match body with
  | [] => (false, [])
  | c :: rest =>
    if c = '-' then (true, rest)
    else if c = '+' then (false, rest)
    else (false, c :: rest)

/-- The digits `strtoul` converts: the longest run of decimal digits after
the leading white space and the optional sign. -/
def numberDigits (str : List Char) : List Char :=
  (signAndRest (str.dropWhile isspace)).2.takeWhile Char.isDigit

/-- `std::stoul(str)` (base 10, `pos` not requested), by way of `strtoul`:
leading white space is skipped, one sign is accepted, then the longest run of
digits is converted and whatever follows is ignored.  No digit at all throws
`std::invalid_argument`; a magnitude above `ULONG_MAX` throws
`std::out_of_range`; a minus sign negates in `unsigned long`. -/
def stoul (ULONG_MAX : Nat) (str : List Char) : Except Exception Nat :=
  let ds := numberDigits str
  if ds = [] then .error .invalid_argument
  else if digitsValue ds > ULONG_MAX then .error .out_of_range
  else if (signAndRest (str.dropWhile isspace)).1 then
    .ok ((ULONG_MAX + 1 - digitsValue ds) % (ULONG_MAX + 1))
  else .ok (digitsValue ds)

/-- `static_cast<std::uint8_t>` of an `unsigned long`. -/
def toOctet (n : Nat) : Octet := ⟨n % 256, Nat.mod_lt _ (by decide)⟩

/-- How a piece of the program can end: with a value, with a thrown
exception, or in undefined behaviour (a write past the end of `m_ipParts`). -/
inductive Outcome (α : Type) where
  | value (a : α)
  | throws (e : Exception)
  | undefined
  deriving DecidableEq, Repr

/-- The `std::transform` of the constructor: for each part in turn the lambda
runs (and may throw), then its result is stored through the output iterator,
which started at `m_ipParts.begin()` and is now at offset `i`.  Offsets 4 and
up are outside the array. -/
def transformLoop (ULONG_MAX : Nat) : Nat → IpAddr → List (List Char) → Outcome IpAddr
  | _, a, [] => .value a
  | i, a, strPart :: rest =>
    match stoul ULONG_MAX strPart with
    | .error e => .throws e
    | .ok n =>
      if i < 4 then transformLoop ULONG_MAX (i + 1) (a.set i (toOctet n)) rest
      else .undefined

/-- `IpAddr::IpAddr(std::vector<std::string> &&parts)`.  The member array has
no initialiser, so `storage` is whatever the object's bytes held before. -/
def IpAddr.ctor (ULONG_MAX : Nat) (storage : IpAddr) (parts : List (List Char)) :
    Outcome IpAddr :=
  transformLoop ULONG_MAX 0 storage parts

/-! ## Printing and filters (main.cpp 53-100) -/

/-- `std::to_string` of a non-negative `int`. -/
def to_string (n : Nat) : List Char := Nat.toDigits 10 n

/-- The `for` loop of `print` from iterator offset `i` on, appending to the
text already written to `std::cout`. -/
def printLoop : Nat → List Octet → List Char → List Char
  | _, [], cout => cout
  | i, ip_part :: rest, cout =>
    let cout1 := if i ≠ 0 then cout ++ ['.'] else cout
    printLoop (i + 1) rest (cout1 ++ to_string ip_part.val)

/-- `IpAddr::print`: the loop, then `std::endl`. -/
def IpAddr.print (a : IpAddr) (cout : List Char) : List Char :=
  printLoop 0 a.m_ipParts cout ++ ['\n']

/-- `filter_impl`: the iterator is the part of `m_ipParts` from its position
to `cend()`, the parameter pack is a list.  The first equation is the
overload without values (main.cpp 80-84). -/
def filter_impl : List Octet → List Nat → Bool
  | _, [] => false
  | [], _ :: _ => true
  | x :: it, v :: flt =>
    if x.val ≠ v then false
    else if flt.length = 0 then true
    else filter_impl it flt

/-- `IpAddr::filter(flt...)`. -/
def IpAddr.filter (a : IpAddr) (flt : List Nat) : Bool :=
  filter_impl a.m_ipParts flt

/-- `IpAddr::filter_any(flt)`. -/
def IpAddr.filter_any (a : IpAddr) (flt : Octet) : Bool :=
  a.m_ipParts.any (fun v => v = flt)

/-! ## `main` (main.cpp 113-214) -/

/-- What the source leaves to the platform. -/
structure Env where
  /-- Largest `unsigned long`. -/
  ULONG_MAX : Nat
  /-- Text of `e.what()`. -/
  what : Exception → List Char
  /-- Bytes found in the not yet initialised `IpAddr` built for input line `i`. -/
  uninit : Nat → IpAddr

/-- `v.at(0)`: bounds-checked element access. -/
def vectorAt (v : List (List Char)) (i : Nat) : Except Exception (List Char) :=
  match v.get? i with
  | some x => .ok x
  | none => .error .out_of_range

/-- The reading loop (main.cpp 118-121) from line number `i` on; each
`std::getline` result is one element of `lines`. -/
def readLoop (env : Env) : Nat → List (List Char) → List IpAddr → Outcome (List IpAddr)
  | _, [], ip_pool => .value ip_pool
  | i, line :: rest, ip_pool =>
    match vectorAt (split line '\t') 0 with
    | .error e => .throws e
    | .ok field =>
      match IpAddr.ctor env.ULONG_MAX (env.uninit i) (split field '.') with
      | .value a => readLoop env (i + 1) rest (ip_pool ++ [a])
      | .throws e => .throws e
      | .undefined => .undefined

/-- What the process leaves behind. -/
structure Process where
  stdout : List Char
  stderr : List Char
  status : Int
  deriving DecidableEq, Repr

/-- `main` on the lines of standard input; `none` is undefined behaviour. -/
def main (env : Env) (lines : List (List Char)) : Option Process :=
  match readLoop env 0 lines [] with
  | .undefined => none
  | .throws e => some { stdout := [], stderr := env.what e ++ ['\n'], status := 0 }
  | .value ip_pool =>
    let ip_pool := sort greater ip_pool
    let cout := ip_pool.foldl (fun cout ip => ip.print cout) []
    let cout := ip_pool.foldl (fun cout ip => if ip.filter [1] then ip.print cout else cout) cout
    let cout := ip_pool.foldl
      (fun cout ip => if ip.filter [46, 70] then ip.print cout else cout) cout
    let cout := ip_pool.foldl
      (fun cout ip => if ip.filter_any 46 then ip.print cout else cout) cout
    some { stdout := cout, stderr := [], status := 0 }

/-! ## Vocabulary of the specification -/

/-- A decimal numeral: a non-empty text made of ASCII digits only. -/
def isDecimal (f : List Char) : Bool := !f.isEmpty && f.all Char.isDigit

/-- A canonical octet text: a decimal numeral without leading zeros (zero is
written `0`) whose value is at most 255. -/
def isCanonicalOctet (f : List Char) : Bool :=
  isDecimal f && (f.head? != some '0' || f == ['0']) && decide (digitsValue f ≤ 255)

/-- The maximal segments of a text between occurrences of `d`, left to
right, defined by recursion on the text. -/
def pieces (d : Char) : List Char → List (List Char)
  | [] => [[]]
  | c :: cs =>
    if c = d then [] :: pieces d cs
    else
      match pieces d cs with
      | [] => [[c]]
      | p :: ps => (c :: p) :: ps

/-- The elements of `ps` written one after another with `d` between
neighbours. -/
def joinWith (d : Char) : List (List Char) → List Char
  | [] => []
  | [p] => p
  | p :: q :: rest => p ++ d :: joinWith d (q :: rest)

/-- The dotted text of four fields. -/
def dotted (f0 f1 f2 f3 : List Char) : List Char :=
  f0 ++ '.' :: (f1 ++ '.' :: (f2 ++ '.' :: f3))

/-- One output block: every address of `l`, in order, each on a line of its
own. -/
def block (l : List IpAddr) : List Char :=
  l.flatMap (fun a => a.print [])

/-- Lexicographic "greater" on octet sequences, in the words of the
specification: at the first position where the two differ, the octet of the
left one is the larger. -/
def lexGreater : List Octet → List Octet → Bool
  | x :: xs, y :: ys => if x = y then lexGreater xs ys else decide (y < x)
  | _, _ => false

/-- A field read as four consecutive parts: leading white space, a sign,
a run of decimal digits, and whatever text follows. -/
structure FieldShape where
  blanks : List Char
  sign : List Char
  digits : List Char
  rest : List Char
  deriving DecidableEq, Repr

/-- The field the four parts spell. -/
def FieldShape.text (s : FieldShape) : List Char :=
  s.blanks ++ s.sign ++ s.digits ++ s.rest

/-- The parts are what their names say: only white space in front, no sign or
one `+` or one `-`, at least one digit and digits only in the run, and the
text after the run does not go on with a digit. -/
def FieldShape.wellFormed (s : FieldShape) : Bool :=
  s.blanks.all isspace &&
  (s.sign == [] || s.sign == ['+'] || s.sign == ['-']) &&
  !s.digits.isEmpty && s.digits.all Char.isDigit &&
  (match s.rest with
    | [] => true
    | c :: _ => !c.isDigit)

/-- The number a field of this shape stands for in `unsigned long`: the value
of the digit run, negated modulo `ULONG_MAX + 1` under a minus sign. -/
def FieldShape.converted (ULONG_MAX : Nat) (s : FieldShape) : Nat :=
  if s.sign = ['-'] then (ULONG_MAX + 1 - digitsValue s.digits) % (ULONG_MAX + 1)
  else digitsValue s.digits

/-- A field is accepted when it reads as optional white space, an optional
sign and a digit run whose value fits `unsigned long`, followed by any text
that does not extend the run. -/
def accepted (ULONG_MAX : Nat) (f : List Char) : Prop :=
  ∃ s : FieldShape, s.wellFormed = true ∧ s.text = f ∧ digitsValue s.digits ≤ ULONG_MAX

/-- An LP64 platform whose `what()` is the name of the failing call. -/
def lp64 : Env :=
  { ULONG_MAX := 2 ^ 64 - 1, what := fun _ => "stoul".toList, uninit := fun _ => ⟨0, 0, 0, 0⟩ }

/-- Shorthand for writing an address in examples. -/
def ip (a b c d : Octet) : IpAddr := ⟨a, b, c, d⟩

/-! ## Ordering lemmas -/

theorem toU32_eq_be32 (a : IpAddr) : a.toU32 = be32 a := by
  obtain ⟨⟨x0, h0⟩, ⟨x1, h1⟩, ⟨x2, h2⟩, ⟨x3, h3⟩⟩ := a
  simp only [IpAddr.toU32, be32, Nat.shiftLeft_eq]
  have e0 : x0 * 2 ^ 24 % 2 ^ 32 = 2 ^ 24 * x0 := by omega
  have e1 : x1 * 2 ^ 16 % 2 ^ 32 = x1 * 2 ^ 16 := by omega
  have e2 : x2 * 2 ^ 8 % 2 ^ 32 = x2 * 2 ^ 8 := by omega
  rw [e0, e1, e2]
  rw [← Nat.mul_add_lt_is_or (show x1 * 2 ^ 16 < 2 ^ 24 by omega)]
  have s1 : 2 ^ 24 * x0 + x1 * 2 ^ 16 = 2 ^ 16 * (x0 * 2 ^ 8 + x1) := by omega
  rw [s1, ← Nat.mul_add_lt_is_or (show x2 * 2 ^ 8 < 2 ^ 16 by omega)]
  have s2 : 2 ^ 16 * (x0 * 2 ^ 8 + x1) + x2 * 2 ^ 8
      = 2 ^ 8 * (x0 * 2 ^ 16 + x1 * 2 ^ 8 + x2) := by omega
  rw [s2, ← Nat.mul_add_lt_is_or (show x3 < 2 ^ 8 by omega)]
  omega

theorem be32_injective (a b : IpAddr) (h : be32 a = be32 b) : a = b := by
  obtain ⟨⟨x0, h0⟩, ⟨x1, h1⟩, ⟨x2, h2⟩, ⟨x3, h3⟩⟩ := a
  obtain ⟨⟨y0, k0⟩, ⟨y1, k1⟩, ⟨y2, k2⟩, ⟨y3, k3⟩⟩ := b
  simp only [be32] at h
  simp only [IpAddr.mk.injEq, Fin.mk.injEq]
  omega

theorem greater_iff (a b : IpAddr) : greater a b = true ↔ be32 b < be32 a := by
  simp [greater, IpAddr.gt, toU32_eq_be32]

/-! ## Sorting lemmas -/

theorem sortInsert_perm (x : IpAddr) (l : List IpAddr) :
    (sortInsert greater x l).Perm (x :: l) := by
  induction l with
  | nil => exact List.Perm.refl _
  | cons y ys ih =>
    unfold sortInsert
    split
    · exact (List.Perm.cons y ih).trans (List.Perm.swap x y ys)
    · exact List.Perm.refl _

theorem sort_perm (pool : List IpAddr) : (sort greater pool).Perm pool := by
  induction pool with
  | nil => exact List.Perm.refl _
  | cons x xs ih =>
    exact (sortInsert_perm x (sort greater xs)).trans (List.Perm.cons x ih)

theorem sortInsert_descending (x : IpAddr) (l : List IpAddr)
    (hl : l.Pairwise (fun a b => be32 b ≤ be32 a)) :
    (sortInsert greater x l).Pairwise (fun a b => be32 b ≤ be32 a) := by
  induction l with
  | nil => simp [sortInsert]
  | cons y ys ih =>
    rw [List.pairwise_cons] at hl
    unfold sortInsert
    split
    · rename_i hyx
      rw [greater_iff] at hyx
      rw [List.pairwise_cons]
      refine ⟨?_, ih hl.2⟩
      intro z hz
      rcases List.mem_cons.1 ((List.Perm.mem_iff (sortInsert_perm x ys)).1 hz) with hz1 | hz1
      · rw [hz1]; exact Nat.le_of_lt hyx
      · exact hl.1 z hz1
    · rename_i hyx
      rw [greater_iff, Nat.not_lt] at hyx
      rw [List.pairwise_cons]
      refine ⟨?_, List.pairwise_cons.2 hl⟩
      intro z hz
      rcases List.mem_cons.1 hz with hz1 | hz1
      · rw [hz1]; exact hyx
      · exact Nat.le_trans (hl.1 z hz1) hyx

theorem sort_descending (pool : List IpAddr) :
    (sort greater pool).Pairwise (fun a b => be32 b ≤ be32 a) := by
  induction pool with
  | nil => simp [sort]
  | cons x xs ih => exact sortInsert_descending x (sort greater xs) ih

/-- What the standard promises of `std::sort` pins the result down: a
permutation of the pool in which no later element is `greater` than an
earlier one is the list `sort greater pool`. -/
theorem sort_unique (pool l : List IpAddr) (hp : l.Perm pool)
    (hs : l.Pairwise (fun a b => greater b a = false)) : l = sort greater pool := by
  have hs1 : l.Pairwise (fun a b => be32 b ≤ be32 a) :=
    hs.imp (fun {a b} h => by
      have := greater_iff b a
      rw [h] at this
      simpa using this)
  have key : ∀ l1 l2 : List IpAddr, l1.Perm l2 →
      l1.Pairwise (fun a b => be32 b ≤ be32 a) →
      l2.Pairwise (fun a b => be32 b ≤ be32 a) → l1 = l2 := by
    intro l1 l2 h12 h1 h2
    have m1 : (l1.map be32).Perm (l2.map be32) := h12.map be32
    have e : l1.map be32 = l2.map be32 := by
      apply List.eq_of_perm_of_sorted (r := fun x y => y ≤ x) m1
      · exact (List.pairwise_map.2 h1)
      · exact (List.pairwise_map.2 h2)
    exact List.map_injective_iff.2 (fun a b h => be32_injective a b h) e
  exact key l (sort greater pool) (hp.trans (sort_perm pool).symm) hs1 (sort_descending pool)

/-! ## Filter lemmas -/

/-- With at least one supplied value, `filter_impl` answers whether the
supplied values agree with the octets at every position both sequences have. -/
theorem filter_impl_iff (it : List Octet) (v : Nat) (flt : List Nat) :
    filter_impl it (v :: flt) = true ↔
      ∀ i, i < it.length → i < (v :: flt).length →
        (it.get? i).map Fin.val = (v :: flt).get? i := by
  induction it generalizing v flt with
  | nil => simp [filter_impl]
  | cons x rest ih =>
    unfold filter_impl
    by_cases hx : x.val = v
    · cases flt with
      | nil =>
        simp only [hx, ne_eq, not_true_eq_false, if_false, List.length_nil, if_true, true_iff]
        intro i _ hi
        have hi0 : i = 0 := by simpa using hi
        subst hi0
        simp [hx]
      | cons w ws =>
        simp only [hx, ne_eq, not_true_eq_false, if_false, List.length_cons,
          Nat.add_one_ne_zero]
        rw [ih w ws]
        constructor
        · intro h i hi1 hi2
          cases i with
          | zero => simp [hx]
          | succ j =>
            simp only [List.get?_cons_succ]
            exact h j (by simpa using hi1) (by simpa using hi2)
        · intro h j hj1 hj2
          have := h (j + 1) (by simpa using hj1) (by simpa using hj2)
          simpa only [List.get?_cons_succ] using this
    · simp only [ne_eq, hx, not_false_eq_true, if_true, Bool.false_eq_true, false_iff]
      intro h
      have := h 0 (by simp) (by simp)
      simp at this
      exact hx this

/-! ## Conversion lemmas -/

theorem isDigit_not_space (c : Char) (h : c.isDigit = true) :
    isspace c = false ∧ c ≠ '-' ∧ c ≠ '+' ∧ c ≠ '.' := by
  refine ⟨?_, ?_, ?_, ?_⟩
  · cases hs : isspace c
    · rfl
    · simp only [isspace, Bool.or_eq_true, decide_eq_true_eq] at hs
      rcases hs with ((((hs | hs) | hs) | hs) | hs) | hs <;>
        (rw [hs] at h; exact absurd h (by decide))
  all_goals (intro hs; rw [hs] at h; exact absurd h (by decide))

theorem takeWhile_all (p : Char → Bool) (l : List Char) (h : l.all p = true) :
    l.takeWhile p = l := by
  induction l with
  | nil => rfl
  | cons x xs ih =>
    simp only [List.all_cons, Bool.and_eq_true] at h
    simp [List.takeWhile, h.1, ih h.2]

theorem numberDigits_decimal (f : List Char) (h : isDecimal f = true) :
    numberDigits f = f ∧ (signAndRest (f.dropWhile isspace)).1 = false := by
  cases f with
  | nil => simp [isDecimal] at h
  | cons c cs =>
    have hall : (c :: cs).all Char.isDigit = true := by
      simp only [isDecimal, Bool.and_eq_true] at h
      exact h.2
    have hc : c.isDigit = true := by
      simp only [List.all_cons, Bool.and_eq_true] at hall
      exact hall.1
    obtain ⟨h1, h2, h3, _⟩ := isDigit_not_space c hc
    have hd : (c :: cs).dropWhile isspace = c :: cs := by
      simp [List.dropWhile, h1]
    have hsr : signAndRest (c :: cs) = (false, c :: cs) := by
      simp [signAndRest, h2, h3]
    constructor
    · unfold numberDigits
      rw [hd, hsr]
      exact takeWhile_all _ _ hall
    · rw [hd, hsr]

/-- On a decimal numeral `std::stoul` returns its value, unless that value
does not fit `unsigned long`. -/
theorem stoul_decimal (U : Nat) (f : List Char) (h : isDecimal f = true) :
    stoul U f =
      if digitsValue f > U then .error .out_of_range else .ok (digitsValue f) := by
  obtain ⟨hn, hs⟩ := numberDigits_decimal f h
  have hne : f ≠ [] := by
    intro e
    rw [e] at h
    simp [isDecimal] at h
  unfold stoul
  simp only [hn, hs, hne, if_false, Bool.false_eq_true]

/-- A conversion that throws makes the constructor throw, as long as the
parts still fit the array. -/
theorem transformLoop_throws (U : Nat) (parts : List (List Char)) :
    ∀ (i : Nat) (a : IpAddr), i + parts.length ≤ 4 →
      (∃ f ∈ parts, ∃ e, stoul U f = .error e) →
      ∃ e, transformLoop U i a parts = .throws e := by
  induction parts with
  | nil =>
    intro i a _ h
    obtain ⟨f, hf, _⟩ := h
    simp at hf
  | cons p ps ih =>
    intro i a hlen h
    simp only [List.length_cons] at hlen
    unfold transformLoop
    cases hp : stoul U p with
    | error e => exact ⟨e, rfl⟩
    | ok n =>
      have hi : i < 4 := by omega
      simp only [hi, if_true]
      apply ih (i + 1) _ (by omega)
      obtain ⟨f, hf, e, he⟩ := h
      rcases List.mem_cons.1 hf with hfp | hfp
      · rw [hfp, hp] at he
        cases he
      · exact ⟨f, hfp, e, he⟩

/-- Four parts that all convert give the address of their low bytes. -/
theorem ctor_four (U : Nat) (storage : IpAddr) (f0 f1 f2 f3 : List Char) (n0 n1 n2 n3 : Nat)
    (h0 : stoul U f0 = .ok n0) (h1 : stoul U f1 = .ok n1)
    (h2 : stoul U f2 = .ok n2) (h3 : stoul U f3 = .ok n3) :
    IpAddr.ctor U storage [f0, f1, f2, f3]
      = .value ⟨toOctet n0, toOctet n1, toOctet n2, toOctet n3⟩ := by
  simp [IpAddr.ctor, transformLoop, h0, h1, h2, h3, IpAddr.set]

/-! ## `split` computes the segments -/

theorem pieces_ne_nil (d : Char) (s : List Char) : pieces d s ≠ [] := by
  cases s with
  | nil => simp [pieces]
  | cons c cs =>
    unfold pieces
    split
    · simp
    · split <;> simp

theorem pieces_of_not_mem (d : Char) (f : List Char) (h : d ∉ f) : pieces d f = [f] := by
  induction f with
  | nil => rfl
  | cons c cs ih =>
    have hc : c ≠ d := fun e => h (by simp [e])
    have hcs : d ∉ cs := fun e => h (List.mem_cons_of_mem _ e)
    simp [pieces, hc, ih hcs]

theorem pieces_append (d : Char) (pre post : List Char) (h : d ∉ pre) :
    pieces d (pre ++ d :: post) = pre :: pieces d post := by
  induction pre with
  | nil => simp [pieces]
  | cons c cs ih =>
    have hc : c ≠ d := fun e => h (by simp [e])
    have hcs : d ∉ cs := fun e => h (List.mem_cons_of_mem _ e)
    simp [pieces, hc, ih hcs]

theorem joinWith_pieces (d : Char) (s : List Char) : joinWith d (pieces d s) = s := by
  induction s with
  | nil => rfl
  | cons c cs ih =>
    unfold pieces
    by_cases hc : c = d
    · rw [if_pos hc]
      cases hp : pieces d cs with
      | nil => exact absurd hp (pieces_ne_nil d cs)
      | cons q rest =>
        rw [hp] at ih
        simp [joinWith, ih, hc]
    · rw [if_neg hc]
      cases hp : pieces d cs with
      | nil => exact absurd hp (pieces_ne_nil d cs)
      | cons q rest =>
        rw [hp] at ih
        cases rest with
        | nil => simpa [joinWith] using ih
        | cons r rs =>
          simp only [joinWith] at ih ⊢
          rw [← ih]
          simp

theorem firstIndex_none (d : Char) (l : List Char) (h : firstIndex d l = none) : d ∉ l := by
  induction l with
  | nil => simp
  | cons x xs ih =>
    unfold firstIndex at h
    by_cases hx : x = d
    · simp [hx] at h
    · simp only [hx, if_false, Option.map_eq_none'] at h
      intro hm
      rcases List.mem_cons.1 hm with e | e
      · exact hx e.symm
      · exact ih h e

theorem firstIndex_some (d : Char) (l : List Char) (k : Nat) (h : firstIndex d l = some k) :
    ∃ pre post, l = pre ++ d :: post ∧ pre.length = k ∧ d ∉ pre := by
  induction l generalizing k with
  | nil => simp [firstIndex] at h
  | cons x xs ih =>
    unfold firstIndex at h
    by_cases hx : x = d
    · simp only [hx, if_true, Option.some.injEq] at h
      exact ⟨[], xs, by simp [hx], by simp [h], by simp⟩
    · simp only [hx, if_false, Option.map_eq_some'] at h
      obtain ⟨j, hj, hk⟩ := h
      obtain ⟨pre, post, e, hl, hn⟩ := ih j hj
      refine ⟨x :: pre, post, by simp [e], by simp [hl, hk], ?_⟩
      intro hm
      rcases List.mem_cons.1 hm with e1 | e1
      · exact hx e1.symm
      · exact hn e1

/-- The loop of `split`, entered at `start` with `stop` already searched from
`start`, finishes within its budget, never throws, and appends the segments
of the text from `start` on. -/
theorem splitLoop_eq (str : List Char) (d : Char) :
    ∀ (fuel start : Nat) (result : List (List Char)),
      start ≤ str.length → str.length - start < fuel →
      splitLoop str d fuel start (find_first_of str d start) result
        = some (.ok (result ++ pieces d (str.drop start))) := by
  intro fuel
  induction fuel with
  | zero => intro start result _ h; omega
  | succ fuel ih =>
    intro start result hs hf
    have hsub : ¬ start > str.length := by omega
    cases hfi : firstIndex d (str.drop start) with
    | none =>
      have hfind : find_first_of str d start = none := by simp [find_first_of, hfi]
      rw [hfind]
      simp only [splitLoop, substr, hsub, if_false]
      rw [pieces_of_not_mem d _ (firstIndex_none d _ hfi)]
    | some k =>
      have hfind : find_first_of str d start = some (start + k) := by
        simp [find_first_of, hfi]
      obtain ⟨pre, post, e, hl, hn⟩ := firstIndex_some d _ k hfi
      have hlen : str.length - start = k + 1 + post.length := by
        have := congrArg List.length e
        simp only [List.length_drop, List.length_append, List.length_cons, hl] at this
        omega
      have htake : (str.drop start).take (start + k - start) = pre := by
        rw [e, Nat.add_sub_cancel_left, ← hl]
        simp
      have hdrop : str.drop (start + k + 1) = post := by
        have : str.drop (start + k + 1) = (str.drop start).drop (k + 1) := by
          rw [List.drop_drop]
          congr 1
        rw [this, e, ← hl]
        simp
      rw [hfind]
      simp only [splitLoop, substr, hsub, if_false, htake]
      rw [ih (start + k + 1) (result ++ [pre]) (by omega) (by omega), hdrop, e,
        pieces_append d pre post hn]
      simp

theorem splitRun_eq (str : List Char) (d : Char) :
    splitRun str d = some (.ok (pieces d str)) := by
  have := splitLoop_eq str d (str.length + 1) 0 [] (Nat.zero_le _) (by omega)
  simpa [splitRun] using this

theorem split_eq_pieces (str : List Char) (d : Char) : split str d = pieces d str := by
  simp [split, splitRun_eq]

theorem split_dotted (f0 f1 f2 f3 : List Char)
    (h0 : '.' ∉ f0) (h1 : '.' ∉ f1) (h2 : '.' ∉ f2) (h3 : '.' ∉ f3) :
    split (dotted f0 f1 f2 f3) '.' = [f0, f1, f2, f3] := by
  rw [split_eq_pieces, dotted, pieces_append _ _ _ h0, pieces_append _ _ _ h1,
    pieces_append _ _ _ h2, pieces_of_not_mem _ _ h3]

/-! ## Decimal text of a number -/

theorem toDigitsCore_acc (fuel : Nat) : ∀ (n : Nat) (ds : List Char),
    Nat.toDigitsCore 10 fuel n ds = Nat.toDigitsCore 10 fuel n [] ++ ds := by
  induction fuel with
  | zero => intro n ds; simp [Nat.toDigitsCore]
  | succ fuel ih =>
    intro n ds
    simp only [Nat.toDigitsCore]
    split
    · simp
    · rw [ih (n / 10) (Nat.digitChar (n % 10) :: ds), ih (n / 10) [Nat.digitChar (n % 10)]]
      simp

theorem digitChar_of_isDigit (c : Char) (h : c.isDigit = true) :
    c.toNat - 48 < 10 ∧ Nat.digitChar (c.toNat - 48) = c := by
  have hr : 48 ≤ c.toNat ∧ c.toNat ≤ 57 := by
    simp only [Char.isDigit, Bool.and_eq_true, decide_eq_true_eq] at h
    exact ⟨by simpa [Char.toNat] using h.1, by simpa [Char.toNat] using h.2⟩
  refine ⟨by omega, ?_⟩
  have hc : c = Char.ofNat c.toNat := (Char.ofNat_toNat c).symm
  obtain ⟨k, hk⟩ : ∃ k, c.toNat = 48 + k := ⟨c.toNat - 48, by omega⟩
  have hk10 : k < 10 := by omega
  rw [hk] at hc
  rw [hk, Nat.add_sub_cancel_left, hc]
  interval_cases k <;> rfl

theorem digitsValue_snoc (ds : List Char) (c : Char) :
    digitsValue (ds ++ [c]) = 10 * digitsValue ds + (c.toNat - 48) := by
  simp [digitsValue, List.foldl_append]

theorem digitsValue_pos (c : Char) (cs : List Char) (hc : c.isDigit = true) (h0 : c ≠ '0') :
    0 < digitsValue (c :: cs) := by
  have hfold : ∀ (l : List Char) (acc : Nat), 0 < acc →
      0 < l.foldl (fun acc c => 10 * acc + (c.toNat - 48)) acc := by
    intro l
    induction l with
    | nil => intro acc h; simpa using h
    | cons x xs ih =>
      intro acc h
      simp only [List.foldl_cons]
      exact ih _ (by omega)
  have hd := digitChar_of_isDigit c hc
  have hne : c.toNat - 48 ≠ 0 := by
    intro e
    rw [e] at hd
    exact h0 hd.2.symm
  simp only [digitsValue, List.foldl_cons]
  exact hfold cs _ (by omega)

/-- A digit run without a leading zero (or the single digit `0`) is the
decimal text `std::to_string` gives for its value. -/
theorem toDigitsCore_digitsValue (ds : List Char) :
    ds ≠ [] → ds.all Char.isDigit = true → (ds.head? ≠ some '0' ∨ ds = ['0']) →
    ∀ fuel, digitsValue ds < fuel → Nat.toDigitsCore 10 fuel (digitsValue ds) [] = ds := by
  induction ds using List.reverseRecOn with
  | nil => intro h; exact absurd rfl h
  | append_singleton init c ih =>
    intro _ hall hlead fuel hfuel
    rw [List.all_append, Bool.and_eq_true] at hall
    have hc : c.isDigit = true := by simpa using hall.2
    obtain ⟨hlt, hdc⟩ := digitChar_of_isDigit c hc
    rw [digitsValue_snoc] at hfuel ⊢
    cases fuel with
    | zero => omega
    | succ fuel =>
      have hmod : (10 * digitsValue init + (c.toNat - 48)) % 10 = c.toNat - 48 := by omega
      have hdiv : (10 * digitsValue init + (c.toNat - 48)) / 10 = digitsValue init := by omega
      simp only [Nat.toDigitsCore, hmod, hdiv, hdc]
      cases init with
      | nil => simp [digitsValue]
      | cons x xs =>
        have hx : x.isDigit = true := by
          have := hall.1
          simp only [List.all_cons, Bool.and_eq_true] at this
          exact this.1
        have hx0 : x ≠ '0' := by
          rcases hlead with h | h
          · simpa using h
          · have := congrArg List.length h
            simp at this
        have hpos := digitsValue_pos x xs hx hx0
        have hne : digitsValue (x :: xs) ≠ 0 := by omega
        simp only [hne, if_false]
        rw [toDigitsCore_acc, ih (by simp) hall.1 (Or.inl (by simpa using hx0)) fuel (by omega)]

theorem to_string_digitsValue (f : List Char) (h : isCanonicalOctet f = true) :
    to_string (digitsValue f) = f ∧ isDecimal f = true ∧ digitsValue f ≤ 255 := by
  simp only [isCanonicalOctet, Bool.and_eq_true, Bool.or_eq_true, decide_eq_true_eq] at h
  obtain ⟨⟨hdec, hlead⟩, hv⟩ := h
  refine ⟨?_, hdec, hv⟩
  have hdec1 := hdec
  simp only [isDecimal, Bool.and_eq_true] at hdec1
  have hne : f ≠ [] := by
    intro e
    rw [e] at hdec1
    simp at hdec1
  apply toDigitsCore_digitsValue f hne hdec1.2 _ _ (Nat.lt_succ_self _)
  rcases hlead with h | h
  · left; simpa using h
  · right; simpa using h

theorem not_mem_of_all_isDigit (f : List Char) (h : isDecimal f = true) : '.' ∉ f := by
  simp only [isDecimal, Bool.and_eq_true, List.all_eq_true] at h
  intro hm
  exact (isDigit_not_space _ (h.2 _ hm)).2.2.2 rfl

theorem print_eq (a : IpAddr) (cout : List Char) :
    a.print cout = cout ++ dotted (to_string a.p0.val) (to_string a.p1.val)
      (to_string a.p2.val) (to_string a.p3.val) ++ ['\n'] := by
  simp [IpAddr.print, printLoop, IpAddr.m_ipParts, dotted]

/-! ## Output lemmas -/

theorem print_append (a : IpAddr) (cout : List Char) : a.print cout = cout ++ a.print [] := by
  rw [print_eq a cout, print_eq a []]
  simp

/-- A printing pass over the pool appends the block of the addresses it lets
through. -/
theorem printPass_eq (p : IpAddr → Bool) (l : List IpAddr) : ∀ cout : List Char,
    l.foldl (fun cout ip => if p ip = true then ip.print cout else cout) cout
      = cout ++ block (l.filter p) := by
  induction l with
  | nil => intro cout; simp [block]
  | cons x xs ih =>
    intro cout
    simp only [List.foldl_cons]
    rw [ih]
    by_cases hp : p x = true
    · rw [if_pos hp, print_append x cout, List.filter_cons_of_pos hp]
      simp [block]
    · rw [if_neg hp, List.filter_cons_of_neg hp]

theorem printAll_eq (l : List IpAddr) (cout : List Char) :
    l.foldl (fun cout ip => ip.print cout) cout = cout ++ block l := by
  have := printPass_eq (fun _ => true) l cout
  simpa using this

/-! ## More on the segments -/

theorem pieces_no_delim (d : Char) (s : List Char) : ∀ p ∈ pieces d s, d ∉ p := by
  induction s with
  | nil => simp [pieces]
  | cons c cs ih =>
    unfold pieces
    by_cases hc : c = d
    · rw [if_pos hc]
      intro p hp
      rcases List.mem_cons.1 hp with e | e
      · rw [e]; simp
      · exact ih p e
    · rw [if_neg hc]
      cases hq : pieces d cs with
      | nil => exact absurd hq (pieces_ne_nil d cs)
      | cons q rest =>
        rw [hq] at ih
        intro p hp
        rcases List.mem_cons.1 hp with e | e
        · rw [e]
          intro hm
          rcases List.mem_cons.1 hm with e1 | e1
          · exact hc e1.symm
          · exact ih q (by simp) e1
        · exact ih p (List.mem_cons_of_mem _ e)

theorem pieces_length (d : Char) (s : List Char) :
    (pieces d s).length = s.count d + 1 := by
  induction s with
  | nil => simp [pieces]
  | cons c cs ih =>
    unfold pieces
    by_cases hc : c = d
    · rw [if_pos hc, List.length_cons, ih, hc, List.count_cons_self]
    · rw [if_neg hc]
      cases hq : pieces d cs with
      | nil => exact absurd hq (pieces_ne_nil d cs)
      | cons q rest =>
        rw [hq] at ih
        rw [List.count_cons_of_ne (fun e => hc e.symm)]
        simpa using ih

theorem pieces_head (d : Char) (s : List Char) :
    (pieces d s).get? 0 = some (s.takeWhile (fun c => c ≠ d)) := by
  induction s with
  | nil => simp [pieces]
  | cons c cs ih =>
    unfold pieces
    by_cases hc : c = d
    · simp [hc]
    · rw [if_neg hc]
      cases hq : pieces d cs with
      | nil => exact absurd hq (pieces_ne_nil d cs)
      | cons q rest =>
        rw [hq] at ih
        simp only [List.get?_cons_zero, Option.some.injEq] at ih
        simp [List.takeWhile, hc, ih]

theorem find_first_of_bounds (str : List Char) (d : Char) (start stop : Nat)
    (h : find_first_of str d start = some stop) : start ≤ stop ∧ stop < str.length := by
  unfold find_first_of at h
  cases hfi : firstIndex d (str.drop start) with
  | none => rw [hfi] at h; simp at h
  | some k =>
    rw [hfi] at h
    simp only [Option.map_some', Option.some.injEq] at h
    obtain ⟨pre, post, e, hl, _⟩ := firstIndex_some d _ k hfi
    have := congrArg List.length e
    simp only [List.length_drop, List.length_append, List.length_cons, hl] at this
    omega

/-! ## Octets as text -/

set_option maxRecDepth 100000 in
theorem to_string_octet : ∀ v : Octet,
    isCanonicalOctet (to_string v.val) = true ∧ digitsValue (to_string v.val) = v.val := by
  decide

theorem to_string_no_dot (v : Octet) : '.' ∉ to_string v.val := by
  have h := (to_string_octet v).1
  simp only [isCanonicalOctet, Bool.and_eq_true] at h
  exact not_mem_of_all_isDigit _ h.1.1

/-- A conversion that succeeds inside the array stores the low byte and lets
`std::transform` go on with the next part. -/
theorem transformLoop_step (U i : Nat) (a : IpAddr) (f : List Char) (rest : List (List Char))
    (n : Nat) (hi : i < 4) (hf : stoul U f = .ok n) :
    transformLoop U i a (f :: rest) = transformLoop U (i + 1) (a.set i (toOctet n)) rest := by
  simp [transformLoop, hf, hi]

/-! ## The reading loop -/

theorem vectorAt_split (line : List Char) (d : Char) :
    vectorAt (split line d) 0 = .ok (line.takeWhile (fun c => c ≠ d)) := by
  simp only [vectorAt, split_eq_pieces, pieces_head]

/-- One turn of the reading loop, written with the text before the first tab. -/
theorem readLoop_cons (env : Env) (i : Nat) (line : List Char) (rest : List (List Char))
    (ip_pool : List IpAddr) :
    readLoop env i (line :: rest) ip_pool =
      match IpAddr.ctor env.ULONG_MAX (env.uninit i)
          (split (line.takeWhile (fun c => c ≠ '\t')) '.') with
      | .value a => readLoop env (i + 1) rest (ip_pool ++ [a])
      | .throws e => .throws e
      | .undefined => .undefined := by
  simp only [readLoop, vectorAt_split]

theorem readLoop_append (env : Env) (pre : List (List Char)) :
    ∀ (rest : List (List Char)) (i : Nat) (pool0 pool : List IpAddr),
      readLoop env i pre pool0 = .value pool →
      readLoop env i (pre ++ rest) pool0 = readLoop env (i + pre.length) rest pool := by
  induction pre with
  | nil =>
    intro rest i pool0 pool h
    simp only [readLoop, Outcome.value.injEq] at h
    simp [h]
  | cons l ls ih =>
    intro rest i pool0 pool h
    rw [readLoop_cons] at h
    rw [List.cons_append, readLoop_cons]
    cases hc : IpAddr.ctor env.ULONG_MAX (env.uninit i)
        (split (l.takeWhile (fun c => c ≠ '\t')) '.') with
    | value a =>
      rw [hc] at h
      simp only at h ⊢
      rw [ih rest (i + 1) (pool0 ++ [a]) pool h, List.length_cons]
      congr 1
      omega
    | throws e => rw [hc] at h; cases h
    | undefined => rw [hc] at h; cases h

theorem transformLoop_defined (U : Nat) (parts : List (List Char)) :
    ∀ (i : Nat) (a : IpAddr), i + parts.length ≤ 4 →
      transformLoop U i a parts ≠ .undefined := by
  induction parts with
  | nil => intro i a _; simp [transformLoop]
  | cons p ps ih =>
    intro i a hlen
    simp only [List.length_cons] at hlen
    unfold transformLoop
    cases hp : stoul U p with
    | error e => simp
    | ok n =>
      have hi : i < 4 := by omega
      simp only [hi, if_true]
      exact ih (i + 1) _ (by omega)

theorem readLoop_defined (env : Env) (lines : List (List Char)) :
    ∀ (i : Nat) (ip_pool : List IpAddr),
      (∀ line ∈ lines, (split (line.takeWhile (fun c => c ≠ '\t')) '.').length ≤ 4) →
      readLoop env i lines ip_pool ≠ .undefined := by
  induction lines with
  | nil => intro i ip_pool _; simp [readLoop]
  | cons l ls ih =>
    intro i ip_pool h
    rw [readLoop_cons]
    have hl := h l (by simp)
    have hd : IpAddr.ctor env.ULONG_MAX (env.uninit i)
        (split (l.takeWhile (fun c => c ≠ '\t')) '.') ≠ .undefined :=
      transformLoop_defined env.ULONG_MAX _ 0 (env.uninit i) (by omega)
    cases hc : IpAddr.ctor env.ULONG_MAX (env.uninit i)
        (split (l.takeWhile (fun c => c ≠ '\t')) '.') with
    | value a => exact ih (i + 1) _ (fun line hm => h line (List.mem_cons_of_mem _ hm))
    | throws e => simp
    | undefined => exact absurd hc hd

theorem main_of_throws (env : Env) (lines : List (List Char)) (e : Exception)
    (h : readLoop env 0 lines [] = .throws e) :
    main env lines = some { stdout := [], stderr := env.what e ++ ['\n'], status := 0 } := by
  simp only [main, h]

/-! ## Fields that `std::stoul` accepts -/

theorem dropWhile_append_all (p : Char → Bool) (l1 l2 : List Char) (h1 : l1.all p = true)
    (h2 : ∀ c r, l2 = c :: r → p c = false) : (l1 ++ l2).dropWhile p = l2 := by
  induction l1 with
  | nil =>
    cases l2 with
    | nil => rfl
    | cons c r => simp [List.dropWhile, h2 c r rfl]
  | cons x xs ih =>
    simp only [List.all_cons, Bool.and_eq_true] at h1
    simp [List.dropWhile, h1.1, ih h1.2]

theorem takeWhile_append_all (p : Char → Bool) (l1 l2 : List Char) (h1 : l1.all p = true)
    (h2 : ∀ c r, l2 = c :: r → p c = false) : (l1 ++ l2).takeWhile p = l1 := by
  induction l1 with
  | nil =>
    cases l2 with
    | nil => rfl
    | cons c r => simp [List.takeWhile, h2 c r rfl]
  | cons x xs ih =>
    simp only [List.all_cons, Bool.and_eq_true] at h1
    simp [List.takeWhile, h1.1, ih h1.2]

theorem all_takeWhile (p : Char → Bool) (l : List Char) : (l.takeWhile p).all p = true := by
  induction l with
  | nil => rfl
  | cons x xs ih =>
    by_cases hx : p x = true
    · simp [List.takeWhile, hx, ih]
    · simp [List.takeWhile, hx]

theorem dropWhile_head (p : Char → Bool) (l : List Char) (c : Char) (r : List Char)
    (h : l.dropWhile p = c :: r) : p c = false := by
  induction l with
  | nil => simp at h
  | cons x xs ih =>
    by_cases hx : p x = true
    · simp only [List.dropWhile, hx] at h
      exact ih h
    · simp only [List.dropWhile, hx] at h
      simp only [List.cons.injEq] at h
      rw [← h.1]
      simpa using hx

/-- What `std::stoul` does on a field of the accepted shape. -/
theorem stoul_shape (U : Nat) (s : FieldShape) (h : s.wellFormed = true) :
    stoul U s.text =
      if digitsValue s.digits > U then .error .out_of_range else .ok (s.converted U) := by
  obtain ⟨blanks, sign, digits, rest⟩ := s
  simp only [FieldShape.wellFormed, Bool.and_eq_true, Bool.or_eq_true, beq_iff_eq,
    Bool.not_eq_true', List.isEmpty_eq_false] at h
  obtain ⟨⟨⟨⟨hb, hs⟩, hne⟩, hd⟩, hr⟩ := h
  have hrest : ∀ c r, rest = c :: r → Char.isDigit c = false := by
    intro c r e
    rw [e] at hr
    simpa using hr
  have htake : (digits ++ rest).takeWhile Char.isDigit = digits :=
    takeWhile_append_all _ _ _ hd hrest
  cases digits with
  | nil => exact absurd rfl hne
  | cons d ds =>
    have hdig : d.isDigit = true := by
      simp only [List.all_cons, Bool.and_eq_true] at hd
      exact hd.1
    obtain ⟨hsp, hm, hp, _⟩ := isDigit_not_space d hdig
    have hbody : (blanks ++ (sign ++ (d :: ds) ++ rest)).dropWhile isspace
        = sign ++ (d :: ds) ++ rest := by
      apply dropWhile_append_all _ _ _ hb
      intro c r e
      rcases hs with (hs | hs) | hs
      · rw [hs] at e
        simp only [List.nil_append, List.cons_append, List.cons.injEq] at e
        rw [← e.1]; exact hsp
      · rw [hs] at e
        simp only [List.cons_append, List.nil_append, List.cons.injEq] at e
        rw [← e.1]; decide
      · rw [hs] at e
        simp only [List.cons_append, List.nil_append, List.cons.injEq] at e
        rw [← e.1]; decide
    have htext : (FieldShape.mk blanks sign (d :: ds) rest).text
        = blanks ++ (sign ++ (d :: ds) ++ rest) := by
      simp [FieldShape.text]
    have hsr : signAndRest (sign ++ (d :: ds) ++ rest)
        = (decide (sign = ['-']), (d :: ds) ++ rest) := by
      rcases hs with (hs | hs) | hs
      · rw [hs]
        simp [signAndRest, hm, hp]
      · rw [hs]
        simp [signAndRest]
      · rw [hs]
        simp [signAndRest]
    unfold stoul numberDigits
    rw [htext, hbody, hsr]
    simp only [htake, FieldShape.converted]
    by_cases hneg : sign = ['-'] <;> simp [hneg]

/-- A field in which `std::stoul` finds digits has the accepted shape, with
those digits as its run. -/
theorem shape_of_numberDigits (f : List Char) (h : numberDigits f ≠ []) :
    ∃ s : FieldShape, s.wellFormed = true ∧ s.text = f ∧ s.digits = numberDigits f := by
  have hsplit : f.takeWhile isspace ++ f.dropWhile isspace = f :=
    List.takeWhile_append_dropWhile isspace f
  have hblank := all_takeWhile isspace f
  have shape : ∀ (sign body : List Char),
      (sign = [] ∨ sign = ['+'] ∨ sign = ['-']) →
      f.dropWhile isspace = sign ++ body →
      numberDigits f = body.takeWhile Char.isDigit →
      ∃ s : FieldShape, s.wellFormed = true ∧ s.text = f ∧ s.digits = numberDigits f := by
    intro sign body hsign hbody hnum
    refine ⟨⟨f.takeWhile isspace, sign, body.takeWhile Char.isDigit,
      body.dropWhile Char.isDigit⟩, ?_, ?_, hnum.symm⟩
    · have hne : body.takeWhile Char.isDigit ≠ [] := by rw [← hnum]; exact h
      have hd := all_takeWhile Char.isDigit body
      have hr : (match body.dropWhile Char.isDigit with
          | [] => true
          | c :: _ => !c.isDigit) = true := by
        cases hdw : body.dropWhile Char.isDigit with
        | nil => rfl
        | cons c r => simp [dropWhile_head _ _ c r hdw]
      have hs : (sign == [] || sign == ['+'] || sign == ['-']) = true := by
        rcases hsign with e | e | e <;> rw [e] <;> decide
      simp only [FieldShape.wellFormed, hblank, hs, hd, hr, Bool.and_true, Bool.true_and,
        Bool.not_eq_true', List.isEmpty_eq_false]
      exact hne
    · simp only [FieldShape.text, List.append_assoc,
        List.takeWhile_append_dropWhile]
      rw [← hbody, hsplit]
  cases hb : f.dropWhile isspace with
  | nil =>
    exfalso
    apply h
    simp [numberDigits, hb, signAndRest]
  | cons c r =>
    by_cases hm : c = '-'
    · exact shape ['-'] r (Or.inr (Or.inr rfl)) (by rw [hb, hm]; rfl)
        (by simp [numberDigits, hb, signAndRest, hm])
    · by_cases hp : c = '+'
      · exact shape ['+'] r (Or.inr (Or.inl rfl)) (by rw [hb, hp]; rfl)
          (by simp [numberDigits, hb, signAndRest, hp])
      · exact shape [] (c :: r) (Or.inl rfl) (by rw [hb]; rfl)
          (by simp [numberDigits, hb, signAndRest, hm, hp])

/-- `std::stoul` returns a number exactly on the accepted fields. -/
theorem stoul_ok_iff (U : Nat) (f : List Char) : (∃ n, stoul U f = .ok n) ↔ accepted U f := by
  constructor
  · rintro ⟨n, hn⟩
    have hne : numberDigits f ≠ [] := by
      intro e
      simp [stoul, e] at hn
    obtain ⟨s, hw, ht, _⟩ := shape_of_numberDigits f hne
    refine ⟨s, hw, ht, ?_⟩
    have := stoul_shape U s hw
    rw [ht, hn] at this
    by_contra hgt
    rw [if_pos (Nat.lt_of_not_le hgt)] at this
    cases this
  · rintro ⟨s, hw, ht, hv⟩
    refine ⟨s.converted U, ?_⟩
    rw [← ht, stoul_shape U s hw, if_neg (Nat.not_lt.2 hv)]

theorem not_accepted_of_error (U : Nat) (f : List Char) (e : Exception)
    (h : stoul U f = .error e) : ¬ accepted U f := by
  intro ha
  obtain ⟨n, hn⟩ := (stoul_ok_iff U f).2 ha
  rw [h] at hn
  cases hn

/-! ## Claims -/

/-- C1: the collection after `std::sort` with `std::greater<IpAddr>` is a
permutation of the parsed pool (duplicates kept) and is non-increasing in the
big-endian 32-bit value; the pool 1.1.234.8, 222.173.235.246, 1.29.168.152
comes out as 222.173.235.246, 1.29.168.152, 1.1.234.8. -/
theorem C1_sort_permutation_descending :
    (∀ pool : List IpAddr,
      (sort greater pool).Perm pool ∧
      (sort greater pool).Pairwise (fun a b => be32 a ≥ be32 b)) ∧
    sort greater [ip 1 1 234 8, ip 222 173 235 246, ip 1 29 168 152]
      = [ip 222 173 235 246, ip 1 29 168 152, ip 1 1 234 8] :=
  ⟨fun pool => ⟨sort_perm pool, sort_descending pool⟩, by decide⟩

/-- C2: when the reading loop ends with a pool (every line parsed), standard
output is exactly four blocks with nothing between them: the sorted pool S,
then the addresses of S passing `filter(1)`, then those passing
`filter(46, 70)`, then those passing `filter_any(46)`, each block in the
order of S and one address per line.  The lines 46.70.225.39, 1.1.234.8,
186.204.34.46 (each followed by a tab and a name) give the text shown. -/
theorem C2_four_blocks :
    (∀ (env : Env) (lines : List (List Char)) (pool : List IpAddr),
      readLoop env 0 lines [] = .value pool →
      main env lines = some
        { stdout := block (sort greater pool)
            ++ block ((sort greater pool).filter (fun a => a.filter [1]))
            ++ block ((sort greater pool).filter (fun a => a.filter [46, 70]))
            ++ block ((sort greater pool).filter (fun a => a.filter_any 46)),
          stderr := [],
          status := 0 }) ∧
    main lp64 ["46.70.225.39\tA".toList, "1.1.234.8\tB".toList, "186.204.34.46\tC".toList]
      = some
        { stdout := ("186.204.34.46\n46.70.225.39\n1.1.234.8\n" ++ "1.1.234.8\n"
            ++ "46.70.225.39\n" ++ "186.204.34.46\n46.70.225.39\n").toList,
          stderr := [],
          status := 0 } := by
  refine ⟨?_, by decide⟩
  intro env lines pool h
  simp only [main, h, printAll_eq, printPass_eq, List.nil_append]

/-- C2 at a concrete input: the three lines of the scenario are read as the
pool 46.70.225.39, 1.1.234.8, 186.204.34.46, and the four blocks follow. -/
theorem C2_four_blocks_witness :
    main lp64 ["46.70.225.39\tA".toList, "1.1.234.8\tB".toList, "186.204.34.46\tC".toList]
      = some
        { stdout := block [ip 186 204 34 46, ip 46 70 225 39, ip 1 1 234 8]
            ++ block [ip 1 1 234 8] ++ block [ip 46 70 225 39]
            ++ block [ip 186 204 34 46, ip 46 70 225 39],
          stderr := [],
          status := 0 } :=
  (C2_four_blocks.1 lp64
    ["46.70.225.39\tA".toList, "1.1.234.8\tB".toList, "186.204.34.46\tC".toList]
    [ip 46 70 225 39, ip 1 1 234 8, ip 186 204 34 46] (by decide)).trans (by decide)

/-- C3: for one to four supplied values, each in [0,255], `filter` is true
exactly when every supplied value equals the octet at its position; later
octets are not looked at.  1.87.203.225 passes `filter(1)`, 21.87.203.225
does not; 46.70.225.39 passes `filter(46, 70)`, 46.71.225.39 does not. -/
theorem C3_filter_leading_octets :
    (∀ (a : IpAddr) (vs : List Nat), 1 ≤ vs.length → vs.length ≤ 4 →
      (∀ v ∈ vs, v ≤ 255) →
      (a.filter vs = true ↔
        ∀ i, i < vs.length → (a.m_ipParts.get? i).map Fin.val = vs.get? i)) ∧
    (ip 1 87 203 225).filter [1] = true ∧ (ip 21 87 203 225).filter [1] = false ∧
    (ip 46 70 225 39).filter [46, 70] = true ∧ (ip 46 71 225 39).filter [46, 70] = false := by
  refine ⟨?_, by decide, by decide, by decide, by decide⟩
  intro a vs h1 h4 _
  cases vs with
  | nil => simp at h1
  | cons v flt =>
    unfold IpAddr.filter
    rw [filter_impl_iff]
    have hlen : a.m_ipParts.length = 4 := rfl
    constructor
    · intro h i hi
      exact h i (by omega) hi
    · intro h i _ hi
      exact h i hi

/-- C3 at concrete inputs: the general statement applied to 46.70.225.39
with the values 46, 70 and to 21.87.203.225 with the value 1. -/
theorem C3_filter_leading_octets_witness :
    (ip 46 70 225 39).filter [46, 70] = true ∧ ¬ ((ip 21 87 203 225).filter [1] = true) :=
  ⟨(C3_filter_leading_octets.1 (ip 46 70 225 39) [46, 70] (by decide) (by decide) (by decide)).2
      (by decide),
   fun h => absurd
      ((C3_filter_leading_octets.1 (ip 21 87 203 225) [1] (by decide) (by decide) (by decide)).1 h 0
        (by decide))
      (by decide)⟩

/-- C4: `filter_any(v)` is true exactly when `v` is one of the four octets,
whatever its position.  186.204.34.46 passes `filter_any(46)`, 186.204.34.47
does not. -/
theorem C4_filter_any :
    (∀ (a : IpAddr) (v : Octet),
      a.filter_any v = true ↔ (a.p0 = v ∨ a.p1 = v ∨ a.p2 = v ∨ a.p3 = v)) ∧
    (ip 186 204 34 46).filter_any 46 = true ∧ (ip 186 204 34 47).filter_any 46 = false := by
  refine ⟨?_, by decide, by decide⟩
  intro a v
  simp [IpAddr.filter_any, IpAddr.m_ipParts]

/-- C5: `operator>` is a strict total order that agrees with the big-endian
value: of `a > b`, `b > a`, `a = b` exactly one holds, and `a > b` holds
exactly when the value of `a` is the larger. -/
theorem C5_order_strict_total (a b : IpAddr) :
    ((a.gt b = true ∧ b.gt a = false ∧ a ≠ b) ∨
     (a.gt b = false ∧ b.gt a = true ∧ a ≠ b) ∨
     (a.gt b = false ∧ b.gt a = false ∧ a = b)) ∧
    (a.gt b = true ↔
      a.p0.val * 2 ^ 24 + a.p1.val * 2 ^ 16 + a.p2.val * 2 ^ 8 + a.p3.val >
      b.p0.val * 2 ^ 24 + b.p1.val * 2 ^ 16 + b.p2.val * 2 ^ 8 + b.p3.val) := by
  have hab := greater_iff a b
  have hba := greater_iff b a
  simp only [greater] at hab hba
  refine ⟨?_, hab⟩
  rcases Nat.lt_trichotomy (be32 a) (be32 b) with h | h | h
  · right; left
    refine ⟨?_, hba.2 h, fun e => by rw [e] at h; exact Nat.lt_irrefl _ h⟩
    cases hg : a.gt b
    · rfl
    · exact absurd (hab.1 hg) (Nat.lt_asymm h)
  · right; right
    refine ⟨?_, ?_, be32_injective a b h⟩
    · cases hg : a.gt b
      · rfl
      · have := hab.1 hg; omega
    · cases hg : b.gt a
      · rfl
      · have := hba.1 hg; omega
  · left
    refine ⟨hab.2 h, ?_, fun e => by rw [e] at h; exact Nat.lt_irrefl _ h⟩
    cases hg : b.gt a
    · rfl
    · exact absurd (hba.1 hg) (Nat.lt_asymm h)

/-- C6: text to address to text.  For four canonical octet texts (decimal,
no leading zeros, at most 255) joined by dots, splitting on the dot,
constructing the address and printing it gives the same text back, followed
by the newline of `print`. -/
theorem C6_round_trip (U : Nat) (storage : IpAddr) (f0 f1 f2 f3 : List Char)
    (hU : 255 ≤ U)
    (h0 : isCanonicalOctet f0 = true) (h1 : isCanonicalOctet f1 = true)
    (h2 : isCanonicalOctet f2 = true) (h3 : isCanonicalOctet f3 = true) :
    ∃ a, IpAddr.ctor U storage (split (dotted f0 f1 f2 f3) '.') = .value a ∧
      a.print [] = dotted f0 f1 f2 f3 ++ ['\n'] := by
  obtain ⟨t0, d0, v0⟩ := to_string_digitsValue f0 h0
  obtain ⟨t1, d1, v1⟩ := to_string_digitsValue f1 h1
  obtain ⟨t2, d2, v2⟩ := to_string_digitsValue f2 h2
  obtain ⟨t3, d3, v3⟩ := to_string_digitsValue f3 h3
  have ok : ∀ f, isDecimal f = true → digitsValue f ≤ 255 →
      stoul U f = .ok (digitsValue f) := by
    intro f hd hv
    rw [stoul_decimal U f hd, if_neg (by omega)]
  rw [split_dotted f0 f1 f2 f3 (not_mem_of_all_isDigit f0 d0) (not_mem_of_all_isDigit f1 d1)
    (not_mem_of_all_isDigit f2 d2) (not_mem_of_all_isDigit f3 d3)]
  refine ⟨_, ctor_four U storage f0 f1 f2 f3 _ _ _ _
    (ok f0 d0 v0) (ok f1 d1 v1) (ok f2 d2 v2) (ok f3 d3 v3), ?_⟩
  have m : ∀ n, n ≤ 255 → (toOctet n).val = n := by
    intro n hn
    simp only [toOctet]
    omega
  rw [print_eq]
  simp only [m _ v0, m _ v1, m _ v2, m _ v3, t0, t1, t2, t3, List.nil_append]

/-- C6 at a concrete input: the text 222.173.235.0 survives the round trip. -/
theorem C6_round_trip_witness :
    ∃ a, IpAddr.ctor (2 ^ 64 - 1) (ip 9 9 9 9)
        (split (dotted "222".toList "173".toList "235".toList "0".toList) '.') = .value a ∧
      a.print [] = dotted "222".toList "173".toList "235".toList "0".toList ++ ['\n'] :=
  C6_round_trip (2 ^ 64 - 1) (ip 9 9 9 9) "222".toList "173".toList "235".toList "0".toList
    (by decide) (by decide) (by decide) (by decide) (by decide)

/-- C7 as stated fails: the field `256` is a decimal numeral above 255, yet
construction succeeds, and the first octet is 0, not 256. -/
theorem C7_counterexample :
    isDecimal "256".toList = true ∧ digitsValue "256".toList > 255 ∧
    IpAddr.ctor lp64.ULONG_MAX (ip 7 7 7 7)
      ["256".toList, "1".toList, "2".toList, "3".toList] = .value (ip 0 1 2 3) := by
  decide

/-- C7, amended: construction from four fields fails with an error when some
field is a decimal numeral whose value exceeds `ULONG_MAX` (not 255); four
decimal numerals that fit `unsigned long` always construct an address; and
every address constructed from four decimal numerals has each octet equal to
the value of its field modulo 256. -/
theorem C7_range_is_ulong_and_octet_is_low_byte
    (U : Nat) (storage : IpAddr) (f0 f1 f2 f3 : List Char) :
    ((∃ f ∈ [f0, f1, f2, f3], isDecimal f = true ∧ digitsValue f > U) →
      ∃ e, IpAddr.ctor U storage [f0, f1, f2, f3] = .throws e) ∧
    ((∀ f ∈ [f0, f1, f2, f3], isDecimal f = true ∧ digitsValue f ≤ U) →
      ∃ a, IpAddr.ctor U storage [f0, f1, f2, f3] = .value a) ∧
    ((∀ f ∈ [f0, f1, f2, f3], isDecimal f = true) →
      ∀ a, IpAddr.ctor U storage [f0, f1, f2, f3] = .value a →
        a.p0.val = digitsValue f0 % 256 ∧ a.p1.val = digitsValue f1 % 256 ∧
        a.p2.val = digitsValue f2 % 256 ∧ a.p3.val = digitsValue f3 % 256) := by
  refine ⟨?_, ?_, ?_⟩
  · rintro ⟨f, hf, hd, hv⟩
    apply transformLoop_throws U _ 0 storage (by simp)
    refine ⟨f, hf, .out_of_range, ?_⟩
    rw [stoul_decimal U f hd, if_pos hv]
  · intro h
    have ok : ∀ f ∈ [f0, f1, f2, f3], stoul U f = .ok (digitsValue f) := by
      intro f hf
      rw [stoul_decimal U f (h f hf).1, if_neg (Nat.not_lt.2 (h f hf).2)]
    exact ⟨_, ctor_four U storage f0 f1 f2 f3 _ _ _ _
      (ok f0 (by simp)) (ok f1 (by simp)) (ok f2 (by simp)) (ok f3 (by simp))⟩
  · intro h a ha
    by_cases hv : ∀ f ∈ [f0, f1, f2, f3], digitsValue f ≤ U
    · have ok : ∀ f ∈ [f0, f1, f2, f3], stoul U f = .ok (digitsValue f) := by
        intro f hf
        rw [stoul_decimal U f (h f hf), if_neg (Nat.not_lt.2 (hv f hf))]
      rw [ctor_four U storage f0 f1 f2 f3 _ _ _ _
        (ok f0 (by simp)) (ok f1 (by simp)) (ok f2 (by simp)) (ok f3 (by simp))] at ha
      injection ha with ha
      subst ha
      exact ⟨rfl, rfl, rfl, rfl⟩
    · have hex : ∃ f ∈ [f0, f1, f2, f3], ∃ e, stoul U f = .error e := by
        by_contra hno
        apply hv
        intro f hf
        by_contra hgt
        apply hno
        refine ⟨f, hf, .out_of_range, ?_⟩
        rw [stoul_decimal U f (h f hf), if_pos (Nat.lt_of_not_le hgt)]
      obtain ⟨e, he⟩ := transformLoop_throws U _ 0 storage (by simp) hex
      unfold IpAddr.ctor at ha
      rw [he] at ha
      cases ha

/-- C7, amended, at concrete inputs: on an LP64 platform the numeral 2^64
makes construction fail, while 256, 300, 511, 1000 construct the address with
octets 0, 44, 255, 232. -/
theorem C7_range_is_ulong_and_octet_is_low_byte_witness :
    (∃ e, IpAddr.ctor (2 ^ 64 - 1) (ip 7 7 7 7)
      ["1".toList, "18446744073709551616".toList, "2".toList, "3".toList] = .throws e) ∧
    ((ip 0 44 255 232).p0.val = digitsValue "256".toList % 256 ∧
     (ip 0 44 255 232).p1.val = digitsValue "300".toList % 256 ∧
     (ip 0 44 255 232).p2.val = digitsValue "511".toList % 256 ∧
     (ip 0 44 255 232).p3.val = digitsValue "1000".toList % 256) :=
  ⟨(C7_range_is_ulong_and_octet_is_low_byte (2 ^ 64 - 1) (ip 7 7 7 7)
      "1".toList "18446744073709551616".toList "2".toList "3".toList).1
      ⟨"18446744073709551616".toList, by decide, by decide, by decide⟩,
   (C7_range_is_ulong_and_octet_is_low_byte (2 ^ 64 - 1) (ip 7 7 7 7)
      "256".toList "300".toList "511".toList "1000".toList).2.2
      (by decide) (ip 0 44 255 232) (by decide)⟩

/-- C8 as stated fails: none of `12abc`, ` 7`, `+8`, `-1` is a non-empty run
of digits, yet the four of them construct 12.7.8.255. -/
theorem C8_counterexample :
    isDecimal "12abc".toList = false ∧ isDecimal " 7".toList = false ∧
    isDecimal "+8".toList = false ∧ isDecimal "-1".toList = false ∧
    IpAddr.ctor lp64.ULONG_MAX (ip 0 0 0 0)
      ["12abc".toList, " 7".toList, "+8".toList, "-1".toList] = .value (ip 12 7 8 255) := by
  decide

/-- C8, amended: construction from four fields fails with an error exactly
when some field is not accepted, that is, does not read as optional leading
white space, an optional single sign and then a run of at least one decimal
digit whose value is at most `ULONG_MAX`, followed by any text that does not
extend the run.  When all four fields are accepted construction succeeds, and
each octet is the low byte of the number its field stands for: the value of
the digit run, negated modulo `ULONG_MAX + 1` under a minus sign. -/
theorem C8_fails_iff_field_not_accepted :
    (∀ (U : Nat) (storage : IpAddr) (f0 f1 f2 f3 : List Char),
      (∃ e, IpAddr.ctor U storage [f0, f1, f2, f3] = .throws e) ↔
        ∃ f ∈ [f0, f1, f2, f3], ¬ accepted U f) ∧
    (∀ (U : Nat) (storage : IpAddr) (s0 s1 s2 s3 : FieldShape),
      (∀ s ∈ [s0, s1, s2, s3], s.wellFormed = true ∧ digitsValue s.digits ≤ U) →
      IpAddr.ctor U storage [s0.text, s1.text, s2.text, s3.text]
        = .value ⟨toOctet (s0.converted U), toOctet (s1.converted U),
            toOctet (s2.converted U), toOctet (s3.converted U)⟩) := by
  constructor
  · intro U storage f0 f1 f2 f3
    constructor
    · rintro ⟨e, he⟩
      by_contra hno
      have hall : ∀ f ∈ [f0, f1, f2, f3], ∃ n, stoul U f = .ok n := by
        intro f hf
        by_contra hn
        exact hno ⟨f, hf, fun ha => hn ((stoul_ok_iff U f).2 ha)⟩
      obtain ⟨n0, h0⟩ := hall f0 (by simp)
      obtain ⟨n1, h1⟩ := hall f1 (by simp)
      obtain ⟨n2, h2⟩ := hall f2 (by simp)
      obtain ⟨n3, h3⟩ := hall f3 (by simp)
      rw [ctor_four U storage f0 f1 f2 f3 n0 n1 n2 n3 h0 h1 h2 h3] at he
      cases he
    · rintro ⟨f, hf, hna⟩
      apply transformLoop_throws U _ 0 storage (by simp)
      refine ⟨f, hf, ?_⟩
      cases hs : stoul U f with
      | error e => exact ⟨e, rfl⟩
      | ok n => exact absurd ((stoul_ok_iff U f).1 ⟨n, hs⟩) hna
  · intro U storage s0 s1 s2 s3 h
    have ok : ∀ s ∈ [s0, s1, s2, s3], stoul U s.text = .ok (s.converted U) := by
      intro s hs
      rw [stoul_shape U s (h s hs).1, if_neg (Nat.not_lt.2 (h s hs).2)]
    exact ctor_four U storage _ _ _ _ _ _ _ _
      (ok s0 (by simp)) (ok s1 (by simp)) (ok s2 (by simp)) (ok s3 (by simp))

/-- C8, amended, at concrete inputs, on an LP64 platform: an empty field
makes construction fail, and so does a digit run above `ULONG_MAX` with text
after it; `abc`, a lone sign and blanks only are not accepted; the fields
`12abc`, ` 7`, `+8`, `-1` have the accepted shape and construct 12.7.8.255. -/
theorem C8_fails_iff_field_not_accepted_witness :
    (∃ e, IpAddr.ctor (2 ^ 64 - 1) (ip 0 0 0 0)
      ["1".toList, "2".toList, "".toList, "4".toList] = .throws e) ∧
    (∃ e, IpAddr.ctor (2 ^ 64 - 1) (ip 0 0 0 0)
      ["1".toList, "99999999999999999999abc".toList, "3".toList, "4".toList] = .throws e) ∧
    (¬ accepted (2 ^ 64 - 1) "abc".toList ∧ ¬ accepted (2 ^ 64 - 1) "+".toList ∧
      ¬ accepted (2 ^ 64 - 1) "  ".toList) ∧
    IpAddr.ctor (2 ^ 64 - 1) (ip 0 0 0 0)
      ["12abc".toList, " 7".toList, "+8".toList, "-1".toList] = .value (ip 12 7 8 255) :=
  ⟨(C8_fails_iff_field_not_accepted.1 (2 ^ 64 - 1) (ip 0 0 0 0)
      "1".toList "2".toList "".toList "4".toList).2
      ⟨"".toList, by decide,
        not_accepted_of_error _ _ .invalid_argument (by decide)⟩,
   (C8_fails_iff_field_not_accepted.1 (2 ^ 64 - 1) (ip 0 0 0 0)
      "1".toList "99999999999999999999abc".toList "3".toList "4".toList).2
      ⟨"99999999999999999999abc".toList, by decide,
        not_accepted_of_error _ _ .out_of_range (by decide)⟩,
   ⟨not_accepted_of_error _ _ .invalid_argument (by decide),
    not_accepted_of_error _ _ .invalid_argument (by decide),
    not_accepted_of_error _ _ .invalid_argument (by decide)⟩,
   (C8_fails_iff_field_not_accepted.2 (2 ^ 64 - 1) (ip 0 0 0 0)
      ⟨[], [], "12".toList, "abc".toList⟩ ⟨" ".toList, [], "7".toList, []⟩
      ⟨[], "+".toList, "8".toList, []⟩ ⟨[], "-".toList, "1".toList, []⟩
      (by decide)).trans (by decide)⟩

/-- C9 at its failing inputs: the three fields of `1.2.3` construct an
address without any error, the last octet being whatever the storage held;
the five fields of `1.2.3.4.5` run the store past the end of the array. -/
theorem C9_field_count_unchecked (storage : IpAddr) :
    IpAddr.ctor lp64.ULONG_MAX storage (split "1.2.3".toList '.')
      = .value ⟨1, 2, 3, storage.p3⟩ ∧
    IpAddr.ctor lp64.ULONG_MAX storage (split "1.2.3.4.5".toList '.') = .undefined := by
  have s3 : split "1.2.3".toList '.' = ["1".toList, "2".toList, "3".toList] := by decide
  have s5 : split "1.2.3.4.5".toList '.'
      = ["1".toList, "2".toList, "3".toList, "4".toList, "5".toList] := by decide
  have e1 : stoul lp64.ULONG_MAX "1".toList = .ok 1 := by decide
  have e2 : stoul lp64.ULONG_MAX "2".toList = .ok 2 := by decide
  have e3 : stoul lp64.ULONG_MAX "3".toList = .ok 3 := by decide
  have e4 : stoul lp64.ULONG_MAX "4".toList = .ok 4 := by decide
  have e5 : stoul lp64.ULONG_MAX "5".toList = .ok 5 := by decide
  rw [s3, s5]
  constructor
  · simp only [IpAddr.ctor, transformLoop, e1, e2, e3, IpAddr.set]
    simp [toOctet]
  · simp only [IpAddr.ctor, transformLoop, e1, e2, e3, e4, e5]
    rfl

/-- C10 as stated fails: `filter()` without values is false on 1.2.3.4. -/
theorem C10_counterexample : ¬ ((ip 1 2 3 4).filter [] = true) := by decide

/-- C10, amended: `filter()` called without any value returns false for every
address, through the `filter_impl` overload that takes only the iterator. -/
theorem C10_filter_empty_false (a : IpAddr) : a.filter [] = false := by
  cases h : a.m_ipParts <;> simp [IpAddr.filter, filter_impl, h]

/-- C11: `split(t, d)` returns the maximal `d`-free segments of `t` from left
to right: no element contains `d`, the elements joined with `d` give `t` back
(empty segments are kept), and a text without `d` comes back as the single
element `t`.  The six cases documented above `split` are evaluated. -/
theorem C11_split_segments :
    (∀ (t : List Char) (d : Char),
      (∀ p ∈ split t d, d ∉ p) ∧ joinWith d (split t d) = t ∧
      (d ∉ t → split t d = [t])) ∧
    split "".toList '.' = ["".toList] ∧
    split "11".toList '.' = ["11".toList] ∧
    split "..".toList '.' = ["".toList, "".toList, "".toList] ∧
    split "11.".toList '.' = ["11".toList, "".toList] ∧
    split ".11".toList '.' = ["".toList, "11".toList] ∧
    split "11.22".toList '.' = ["11".toList, "22".toList] := by
  refine ⟨?_, by decide, by decide, by decide, by decide, by decide, by decide⟩
  intro t d
  rw [split_eq_pieces]
  exact ⟨pieces_no_delim d t, joinWith_pieces d t, pieces_of_not_mem d t⟩

/-- C11 at a concrete input: `a.b` has no tab, so splitting it on the tab
gives the single element `a.b`. -/
theorem C11_split_segments_witness : split "a.b".toList '\t' = ["a.b".toList] :=
  (C11_split_segments.1 "a.b".toList '\t').2.2 (by decide)

/-- C12: the length of `split(t, d)` is the number of occurrences of `d` in
`t` plus one; the result is never empty. -/
theorem C12_split_length (t : List Char) (d : Char) :
    (split t d).length = t.count d + 1 ∧ split t d ≠ [] := by
  rw [split_eq_pieces]
  exact ⟨pieces_length d t, pieces_ne_nil d t⟩

/-- C13: `print` writes the four octets in the order octet0 .. octet3, each
as its decimal numeral without leading zeros (0 is written `0`), with one dot
between neighbours, three dots in all, and one newline at the end. -/
theorem C13_print_text :
    (∀ a : IpAddr,
      a.print [] = to_string a.p0.val ++ ['.'] ++ to_string a.p1.val ++ ['.']
        ++ to_string a.p2.val ++ ['.'] ++ to_string a.p3.val ++ ['\n'] ∧
      (∀ v ∈ a.m_ipParts,
        isCanonicalOctet (to_string v.val) = true ∧ digitsValue (to_string v.val) = v.val) ∧
      (a.print []).count '.' = 3) ∧
    to_string 0 = ['0'] ∧
    (ip 1 29 168 0).print [] = "1.29.168.0\n".toList := by
  refine ⟨?_, by decide, by decide⟩
  intro a
  refine ⟨?_, fun v _ => to_string_octet v, ?_⟩
  · rw [print_eq]
    simp [dotted]
  · rw [print_eq]
    have c0 := List.count_eq_zero_of_not_mem (to_string_no_dot a.p0)
    have c1 := List.count_eq_zero_of_not_mem (to_string_no_dot a.p1)
    have c2 := List.count_eq_zero_of_not_mem (to_string_no_dot a.p2)
    have c3 := List.count_eq_zero_of_not_mem (to_string_no_dot a.p3)
    simp [dotted, List.count_append, List.count_cons, c0, c1, c2, c3]

/-- C15 on the code: when no line has more than four dot-separated fields in
its address text the process ends with status 0, and an exception thrown
while reading is reported on standard error with status 0; but for the line
`1.2.3.4.5` the constructor stores past the end of its array and the run,
its exit status included, is undefined. -/
theorem C15_status_zero_unless_overrun :
    (∀ (env : Env) (lines : List (List Char)),
      (∀ line ∈ lines, (split (line.takeWhile (fun c => c ≠ '\t')) '.').length ≤ 4) →
      ∃ p, main env lines = some p ∧ p.status = 0) ∧
    (∀ (env : Env) (lines : List (List Char)) (e : Exception),
      readLoop env 0 lines [] = .throws e →
      main env lines = some { stdout := [], stderr := env.what e ++ ['\n'], status := 0 }) ∧
    main lp64 ["1.2.3.4.5".toList] = none := by
  refine ⟨?_, main_of_throws, by decide⟩
  intro env lines h
  have hd := readLoop_defined env lines 0 [] h
  cases hr : readLoop env 0 lines [] with
  | value pool => simp [main, hr]
  | throws e => simp [main, hr]
  | undefined => exact absurd hr hd

/-- C16: `split` is total.  Run with one iteration per character plus the
exit (or with any larger budget), the loop leaves through `stop == npos`, no
`substr` throws, and the vector is returned; each time the loop goes round,
the next search position `stop + 1` is beyond `start` and within the text. -/
theorem C16_split_total (str : List Char) (d : Char) :
    splitRun str d = some (.ok (split str d)) ∧
    (∀ fuel, str.length < fuel →
      splitLoop str d fuel 0 (find_first_of str d 0) [] = some (.ok (split str d))) ∧
    (∀ start stop, find_first_of str d start = some stop →
      start < stop + 1 ∧ stop + 1 ≤ str.length) := by
  refine ⟨?_, ?_, ?_⟩
  · rw [split_eq_pieces, splitRun_eq]
  · intro fuel hf
    have := splitLoop_eq str d fuel 0 [] (Nat.zero_le _) (by omega)
    rw [split_eq_pieces]
    simpa using this
  · intro start stop h
    have := find_first_of_bounds str d start stop h
    omega

/-- C16 at a concrete input: on `1.2` the run ends with the two segments; a
search from position 0 stops at 1, and the next search starts at 2, inside
the text. -/
theorem C16_split_total_witness :
    splitRun "1.2".toList '.' = some (.ok ["1".toList, "2".toList]) ∧
    find_first_of "1.2".toList '.' 0 = some 1 ∧
    (0 < 1 + 1 ∧ 1 + 1 ≤ "1.2".toList.length) :=
  ⟨(C16_split_total "1.2".toList '.').1.trans (by decide), by decide,
   (C16_split_total "1.2".toList '.').2.2 0 1 (by decide)⟩

/-- C17: the order used for sorting is lexicographic on the octet sequences:
`a > b` (computed on the `toU32` composites) holds exactly when, at the first
position where the octets of `a` and `b` differ, the octet of `a` is larger. -/
theorem C17_order_is_lexicographic (a b : IpAddr) :
    a.gt b = lexGreater a.m_ipParts b.m_ipParts := by
  have h := greater_iff a b
  simp only [greater] at h
  have key : lexGreater a.m_ipParts b.m_ipParts = true ↔ be32 b < be32 a := by
    obtain ⟨⟨x0, h0⟩, ⟨x1, h1⟩, ⟨x2, h2⟩, ⟨x3, h3⟩⟩ := a
    obtain ⟨⟨y0, k0⟩, ⟨y1, k1⟩, ⟨y2, k2⟩, ⟨y3, k3⟩⟩ := b
    simp only [IpAddr.m_ipParts, lexGreater, be32, Fin.mk.injEq, Fin.mk_lt_mk]
    by_cases e0 : x0 = y0
    · by_cases e1 : x1 = y1
      · by_cases e2 : x2 = y2
        · by_cases e3 : x3 = y3
          · simp [e0, e1, e2, e3]
          · simp only [e0, e1, e2, e3, if_true, if_false, decide_eq_true_eq]
            omega
        · simp only [e0, e1, e2, if_true, if_false, decide_eq_true_eq]
          omega
      · simp only [e0, e1, if_true, if_false, decide_eq_true_eq]
        omega
    · simp only [e0, if_false, decide_eq_true_eq]
      omega
  cases hg : a.gt b
  · cases hl : lexGreater a.m_ipParts b.m_ipParts
    · rfl
    · have := h.2 (key.1 hl)
      rw [hg] at this
      cases this
  · exact (key.2 (h.1 hg)).symm

/-- C18: when the lines before some line are all read into the pool and that
line makes the constructor throw, nothing is written to standard output,
whatever the position of the line and whatever follows it: the exception
leaves the reading loop before the first `print`. -/
theorem C18_no_output_on_failure (env : Env) (pre : List (List Char)) (line : List Char)
    (post : List (List Char)) (pool : List IpAddr) (e : Exception)
    (hpre : readLoop env 0 pre [] = .value pool)
    (hline : IpAddr.ctor env.ULONG_MAX (env.uninit pre.length)
      (split (line.takeWhile (fun c => c ≠ '\t')) '.') = .throws e) :
    main env (pre ++ line :: post)
      = some { stdout := [], stderr := env.what e ++ ['\n'], status := 0 } := by
  apply main_of_throws
  rw [readLoop_append env pre (line :: post) 0 [] pool hpre, readLoop_cons, Nat.zero_add, hline]

/-- C18 at concrete inputs: a bad line in last, first and middle position;
the valid lines before it are not printed. -/
theorem C18_no_output_on_failure_witness :
    main lp64 ["1.1.1.1\tA".toList, "2.2.2.2".toList, "3.x.3.3".toList]
      = some { stdout := [], stderr := "stoul\n".toList, status := 0 } ∧
    main lp64 ["".toList, "2.2.2.2".toList]
      = some { stdout := [], stderr := "stoul\n".toList, status := 0 } ∧
    main lp64 ["1.1.1.1".toList, "1.2.3.4.z".toList, "2.2.2.2".toList]
      = some { stdout := [], stderr := "stoul\n".toList, status := 0 } :=
  ⟨C18_no_output_on_failure lp64 ["1.1.1.1\tA".toList, "2.2.2.2".toList] "3.x.3.3".toList []
      [ip 1 1 1 1, ip 2 2 2 2] .invalid_argument (by decide) (by decide),
   C18_no_output_on_failure lp64 [] "".toList ["2.2.2.2".toList]
      [] .invalid_argument (by decide) (by decide),
   C18_no_output_on_failure lp64 ["1.1.1.1".toList] "1.2.3.4.z".toList ["2.2.2.2".toList]
      [ip 1 1 1 1] .invalid_argument (by decide) (by decide)⟩

/-- C19: a field that is a non-empty run of digits whose value `n` fits
`unsigned long` is converted without error and stored as the octet
`n mod 256`, after which the constructor goes on; four such fields construct
the address of their low bytes.  The fields 256, 300, 511, 1000 construct the
address printed as 0.44.255.232. -/
theorem C19_low_byte_stored :
    (∀ (U i : Nat) (a : IpAddr) (f : List Char) (rest : List (List Char)),
      i < 4 → isDecimal f = true → digitsValue f ≤ U →
      stoul U f = .ok (digitsValue f) ∧
      (toOctet (digitsValue f)).val = digitsValue f % 256 ∧
      transformLoop U i a (f :: rest)
        = transformLoop U (i + 1) (a.set i (toOctet (digitsValue f))) rest) ∧
    (∀ (U : Nat) (storage : IpAddr) (f0 f1 f2 f3 : List Char),
      (∀ f ∈ [f0, f1, f2, f3], isDecimal f = true ∧ digitsValue f ≤ U) →
      IpAddr.ctor U storage [f0, f1, f2, f3]
        = .value ⟨toOctet (digitsValue f0), toOctet (digitsValue f1),
            toOctet (digitsValue f2), toOctet (digitsValue f3)⟩) ∧
    (IpAddr.ctor lp64.ULONG_MAX (ip 9 9 9 9)
        ["256".toList, "300".toList, "511".toList, "1000".toList] = .value (ip 0 44 255 232) ∧
      (ip 0 44 255 232).print [] = "0.44.255.232\n".toList) := by
  have ok : ∀ (U : Nat) (f : List Char), isDecimal f = true → digitsValue f ≤ U →
      stoul U f = .ok (digitsValue f) := by
    intro U f hd hv
    rw [stoul_decimal U f hd, if_neg (Nat.not_lt.2 hv)]
  refine ⟨?_, ?_, by decide, by decide⟩
  · intro U i a f rest hi hd hv
    exact ⟨ok U f hd hv, rfl, transformLoop_step U i a f rest _ hi (ok U f hd hv)⟩
  · intro U storage f0 f1 f2 f3 h
    exact ctor_four U storage f0 f1 f2 f3 _ _ _ _
      (ok U f0 (h f0 (by simp)).1 (h f0 (by simp)).2)
      (ok U f1 (h f1 (by simp)).1 (h f1 (by simp)).2)
      (ok U f2 (h f2 (by simp)).1 (h f2 (by simp)).2)
      (ok U f3 (h f3 (by simp)).1 (h f3 (by simp)).2)

/-- C19 at a concrete input: with a 32-bit `unsigned long` the fields 4294967295,
0, 999, 255 construct the address 255.0.231.255. -/
theorem C19_low_byte_stored_witness :
    IpAddr.ctor (2 ^ 32 - 1) (ip 9 9 9 9)
      ["4294967295".toList, "0".toList, "999".toList, "255".toList]
      = .value (ip 255 0 231 255) :=
  (C19_low_byte_stored.2.1 (2 ^ 32 - 1) (ip 9 9 9 9)
    "4294967295".toList "0".toList "999".toList "255".toList (by decide)).trans (by decide)

/-- C20: with more than four supplied values `filter` is true exactly when
the four octets equal the first four values; the values from the fifth on are
not looked at, since the recursion answers true once the iterator is at the
end of the address. -/
theorem C20_filter_extra_values :
    (∀ (a : IpAddr) (vs : List Nat), 4 < vs.length →
      (a.filter vs = true ↔ a.m_ipParts.map Fin.val = vs.take 4)) ∧
    (ip 1 2 3 4).filter [1, 2, 3, 4, 99] = true ∧
    (ip 1 2 3 4).filter [1, 2, 3, 5, 4] = false := by
  refine ⟨?_, by decide, by decide⟩
  intro a vs h
  rcases vs with _ | ⟨v1, _ | ⟨v2, _ | ⟨v3, _ | ⟨v4, _ | ⟨v5, rest⟩⟩⟩⟩⟩
  · simp at h
  · simp at h
  · simp at h
  · simp at h
  · simp at h
  · simp only [IpAddr.filter, IpAddr.m_ipParts, filter_impl, List.length_cons, List.map_cons,
      List.map_nil, List.take_succ_cons, List.take_zero, List.cons.injEq, and_true]
    by_cases e0 : a.p0.val = v1 <;> by_cases e1 : a.p1.val = v2 <;>
      by_cases e2 : a.p2.val = v3 <;> by_cases e3 : a.p3.val = v4 <;>
      simp [e0, e1, e2, e3]

/-- C20 at concrete inputs: 46.70.225.39 passes `filter(46, 70, 225, 39, 0, 1)`
and fails `filter(46, 70, 225, 38, 39)`. -/
theorem C20_filter_extra_values_witness :
    (ip 46 70 225 39).filter [46, 70, 225, 39, 0, 1] = true ∧
    ¬ ((ip 46 70 225 39).filter [46, 70, 225, 38, 39] = true) :=
  ⟨(C20_filter_extra_values.1 (ip 46 70 225 39) [46, 70, 225, 39, 0, 1] (by decide)).2
      (by decide),
   fun h => absurd
     ((C20_filter_extra_values.1 (ip 46 70 225 39) [46, 70, 225, 38, 39] (by decide)).1 h)
     (by decide)⟩

end IpFilter
